import Mathlib

/-!
Shallow embedding of the `Table` core of the proof-of-sql repository,
file `crates/proof-of-sql/src/base/database/table.rs`.

`Table` is an ordered mapping from column identifiers to typed columns plus a
cached row count.  The ordered map type (`crate::base::map::IndexMap`, a
re-export of the `indexmap` ordered map) and the `Column` tagged union live in
repository files that are not part of the examined sources; they are modelled
from the specification, with doc comments marking each such definition.
-/

namespace SxT

/-- Column identifiers are validated name tokens owned by the external parser
crate (`proof_of_sql_parser::Identifier`); their format rules are out of scope,
so identifiers are modelled as opaque strings. -/
abbrev Identifier := String

/-- Modelled from the spec: `Column` (from `base::database::column`, not among
the examined sources) is a tagged union over the column element kinds —
`Boolean`, fixed-width signed integers `TinyInt`/`Int`/`BigInt`/`Int128`,
variable-length text `VarChar`, and a generic `Scalar` payload — each variant
holding a borrowed homogeneous sequence of values. -/
inductive Column (S : Type) where
  | Boolean : List Bool → Column S
  | TinyInt : List Int → Column S
  | Int : List Int → Column S
  | BigInt : List Int → Column S
  | Int128 : List Int → Column S
  | VarChar : List String → Column S
  | Scalar : List S → Column S

deriving instance DecidableEq for Column

/-- Modelled from the spec: `Column::len` returns the element count of
whichever variant is active. -/
def Column.len {S : Type} : Column S → Nat
  | .Boolean l => l.length
  | .TinyInt l => l.length
  | .Int l => l.length
  | .BigInt l => l.length
  | .Int128 l => l.length
  | .VarChar l => l.length
  | .Scalar l => l.length

/-- Modelled from the spec: `IndexMap` (from `crate::base::map`, not among the
examined sources) is an insertion-ordered mapping, modelled as the list of its
(key, value) entries in insertion order.  Maps built by the library always have
pairwise-distinct keys. -/
structure IndexMap (α β : Type) where
  entries : List (α × β)

deriving instance DecidableEq for IndexMap

namespace IndexMap

/-- The keys in insertion order (`IndexMap::keys`). -/
def keys {α β : Type} (m : IndexMap α β) : List α := m.entries.map Prod.fst

/-- The values in insertion order (`IndexMap::values`). -/
def values {α β : Type} (m : IndexMap α β) : List β := m.entries.map Prod.snd

/-- The number of entries (`IndexMap::len`). -/
def len {α β : Type} (m : IndexMap α β) : Nat := m.entries.length

/-- Whether the map has no entries (`IndexMap::is_empty`). -/
def is_empty {α β : Type} (m : IndexMap α β) : Bool := m.entries.isEmpty

/-- The lookup over the entry list underlying `IndexMap::get`. -/
def getEntries {α β : Type} [DecidableEq α] : List (α × β) → α → Option β
  | [], _ => none
  | p :: t, k => if p.1 = k then some p.2 else getEntries t k

/-- Modelled from the spec: `IndexMap::get` — the value stored under a key. -/
def get {α β : Type} [DecidableEq α] (m : IndexMap α β) (k : α) : Option β :=
  getEntries m.entries k

/-- The update over the entry list underlying `IndexMap::insert`. -/
def insertEntries {α β : Type} [DecidableEq α] : List (α × β) → α → β → List (α × β)
  | [], k, v => [(k, v)]
  | p :: t, k, v => if p.1 = k then (k, v) :: t else p :: insertEntries t k v

/-- Modelled from the spec: `IndexMap::insert` — when the key is already
present its value is replaced in place (the key keeps its position), otherwise
the new entry is appended at the end ("standard ordered-map semantics"). -/
def insert {α β : Type} [DecidableEq α] (m : IndexMap α β) (k : α) (v : β) :
    IndexMap α β :=
  ⟨insertEntries m.entries k v⟩

/-- Modelled from the spec: `IndexMap::from_iter` — successive insertion of the
pairs into an empty map, so duplicate identifiers are last-write-wins. -/
def from_iter {α β : Type} [DecidableEq α] (l : List (α × β)) : IndexMap α β :=
  l.foldl (fun m p => m.insert p.1 p.2) ⟨[]⟩

/-- Modelled from the spec: the ordered map's own equality (the `indexmap`
`PartialEq`) compares maps as sets of (key, value) pairs: equal sizes and every
entry of one retrievable, with the same value, from the other. -/
def beq {α β : Type} [DecidableEq α] [DecidableEq β] (m n : IndexMap α β) : Bool :=
  m.len == n.len && m.entries.all fun p => n.get p.1 == some p.2

end IndexMap

/-- The single error kind of the core (`TableError`): the columns passed to
construction have different lengths. -/
inductive TableError where
  | ColumnLengthMismatch

deriving instance DecidableEq for TableError

/-- A table of data with schema included: a map from `Identifier` to `Column`
where column order matters, plus the cached row count (`struct Table`). -/
structure Table (S : Type) where
  table : IndexMap Identifier (Column S)
  num_rows : Nat

deriving instance DecidableEq for Table

/-- `Table::try_new`: succeed with `num_rows = 0` on the empty mapping;
otherwise take the length of the first column in insertion order (`table[0]`)
as the reference row count and fail with `ColumnLengthMismatch` when any
column's length differs from it. -/
def Table.try_new {S : Type} (table : IndexMap Identifier (Column S)) :
    Except TableError (Table S) :=
  match table.entries with
  | [] => .ok ⟨table, 0⟩
  | first :: _ =>
    let num_rows := first.2.len
    if table.values.any fun column => column.len != num_rows then
      .error .ColumnLengthMismatch
    else
      .ok ⟨table, num_rows⟩

/-- `Table::try_new` with the partiality of the `table[0]` indexing made
explicit: `none` models the panic that indexing an empty map would raise.
`Table.try_new` reaches the indexing only after the emptiness check. -/
def Table.try_new_checked {S : Type} (table : IndexMap Identifier (Column S)) :
    Option (Except TableError (Table S)) :=
  if table.is_empty then some (.ok ⟨table, 0⟩)
  else
    table.entries.head?.map fun first =>
      let num_rows := first.2.len
      if table.values.any fun column => column.len != num_rows then
        .error .ColumnLengthMismatch
      else
        .ok ⟨table, num_rows⟩

/-- `Table::try_from_iter`: build the ordered mapping from the pairs, then
delegate to `Table::try_new`. -/
def Table.try_from_iter {S : Type} (iter : List (Identifier × Column S)) :
    Except TableError (Table S) :=
  Table.try_new (IndexMap.from_iter iter)

/-- `Table::num_columns`. -/
def Table.num_columns {S : Type} (t : Table S) : Nat := t.table.len

/-- `Table::is_empty`: whether the table has no columns. -/
def Table.is_empty {S : Type} (t : Table S) : Bool := t.table.is_empty

/-- `Table::into_inner`: the underlying mapping, ownership transferred out. -/
def Table.into_inner {S : Type} (t : Table S) : IndexMap Identifier (Column S) :=
  t.table

/-- `Table::inner_table`: a read-only view of the underlying mapping. -/
def Table.inner_table {S : Type} (t : Table S) : IndexMap Identifier (Column S) :=
  t.table

/-- `Table::column_names`: the column identifiers in insertion order. -/
def Table.column_names {S : Type} (t : Table S) : List Identifier := t.table.keys

/-- `impl PartialEq for Table`: the mappings compare equal under the ordered
map's own equality, and the column identifiers agree pairwise when the two key
sequences are iterated in lockstep. -/
def Table.eqb {S : Type} [DecidableEq S] (t1 t2 : Table S) : Bool :=
  IndexMap.beq t1.table t2.table
    && ((t1.table.keys.zip t2.table.keys).all fun q => q.1 == q.2)

/-- The two panic sites of the test-only `impl Index<&str> for Table`: the
`unwrap` on identifier parsing and the `unwrap` on the map lookup. -/
inductive IndexPanic where
  | parsePanic
  | lookupPanic

deriving instance DecidableEq for IndexPanic

/-- The test-only `impl Index<&str> for Table`: parse the string into an
`Identifier` (panicking at the parse step on a malformed name), then look the
identifier up in the mapping (panicking when absent).  Identifier parsing lives
in the external parser crate, so it is a parameter. -/
def Table.index {S : Type} (parse : String → Option Identifier) (t : Table S)
    (s : String) : Except IndexPanic (Column S) :=
  match parse s with
  | none => .error .parsePanic
  | some id =>
    match t.table.get id with
    | none => .error .lookupPanic
    | some column => .ok column

/-- The value written last for a key in a pair sequence: the formalisation of
"last-write-wins on duplicate identifiers". -/
def lastWrite {α β : Type} [DecidableEq α] : List (α × β) → α → Option β
  | [], _ => none
  | p :: t, k =>
    match lastWrite t k with
    | some v => some v
    | none => if p.1 = k then some p.2 else none

/-- The concrete mapping `{"a": BigInt[1,2,3], "b": VarChar["x","y","z"]}`. -/
def exampleAB : IndexMap Identifier (Column Int) :=
  ⟨[("a", Column.BigInt [1, 2, 3]), ("b", Column.VarChar ["x", "y", "z"])]⟩

/-- The concrete mapping `{"a": BigInt[1,2], "b": VarChar["x","y","z"]}`. -/
def exampleMismatch : IndexMap Identifier (Column Int) :=
  ⟨[("a", Column.BigInt [1, 2]), ("b", Column.VarChar ["x", "y", "z"])]⟩

/-- Inversion for successful construction: `try_new` stores the input mapping
unchanged, every stored column's length equals the cached row count, and the
row count of an empty table is zero. -/
lemma Table.try_new_ok_inv {S : Type} {m : IndexMap Identifier (Column S)}
    {t : Table S} (h : Table.try_new m = .ok t) :
    t.table = m ∧ (∀ p ∈ m.entries, p.2.len = t.num_rows) ∧
      (m.entries = [] → t.num_rows = 0) := by
  unfold Table.try_new at h
  cases hm : m.entries with
  | nil =>
    rw [hm] at h
    cases h
    exact ⟨rfl, by simp, fun _ => rfl⟩
  | cons first rest =>
    rw [hm] at h
    by_cases hany : (m.values.any fun column => column.len != first.2.len) = true
    · simp [hany] at h
    · rw [Bool.not_eq_true] at hany
      simp only [hany, Bool.false_eq_true, if_false] at h
      cases h
      refine ⟨rfl, ?_, by simp⟩
      intro p hp
      have hp0 : p ∈ m.entries := by rw [hm]; exact hp
      have hmem : p.2 ∈ m.values := by
        simp only [IndexMap.values, List.mem_map]
        exact ⟨p, hp0, rfl⟩
      have := List.any_eq_false.mp hany p.2 hmem
      simpa using this

/-- With pairwise-distinct keys, every entry of the map is retrieved by
`get`. -/
lemma IndexMap.get_eq_some_of_mem {α β : Type} [DecidableEq α] :
    ∀ (l : List (α × β)) (k : α) (v : β),
      (l.map Prod.fst).Nodup → (k, v) ∈ l → IndexMap.get ⟨l⟩ k = some v := by
  intro l
  induction l with
  | nil => intro k v _ hmem; cases hmem
  | cons p t ih =>
    intro k v hnd hmem
    rcases List.mem_cons.mp hmem with heq | htail
    · cases heq.symm
      simp [IndexMap.get, IndexMap.getEntries]
    · have hk : k ∈ t.map Prod.fst := List.mem_map.mpr ⟨(k, v), htail, rfl⟩
      have hne : p.1 ≠ k := by
        intro hh
        exact (List.nodup_cons.mp (by simpa using hnd)).1 (hh ▸ hk)
      have hnd2 : (t.map Prod.fst).Nodup := (List.nodup_cons.mp (by simpa using hnd)).2
      have hih := ih k v hnd2 htail
      simp only [IndexMap.get] at hih ⊢
      simp [IndexMap.getEntries, hne, hih]

/-- A key retrieved by `get` is an entry of the map. -/
lemma IndexMap.mem_of_get_eq_some {α β : Type} [DecidableEq α] :
    ∀ (l : List (α × β)) (k : α) (v : β),
      IndexMap.get ⟨l⟩ k = some v → (k, v) ∈ l := by
  intro l
  induction l with
  | nil => intro k v h; simp [IndexMap.get, IndexMap.getEntries] at h
  | cons p t ih =>
    intro k v h
    simp only [IndexMap.get, IndexMap.getEntries] at h
    by_cases hpk : p.1 = k
    · rw [if_pos hpk] at h
      cases h
      exact List.mem_cons.mpr (Or.inl (by rw [← hpk]))
    · rw [if_neg hpk] at h
      exact List.mem_cons.mpr (Or.inr (ih k v h))

/-- Lockstep key comparison of two equally long lists succeeds exactly when
the lists are equal. -/
lemma zip_all_eq_iff {α : Type} [DecidableEq α] :
    ∀ (l1 l2 : List α), l1.length = l2.length →
      ((∀ q ∈ l1.zip l2, q.1 = q.2) ↔ l1 = l2) := by
  intro l1
  induction l1 with
  | nil =>
    intro l2 hlen
    cases l2 with
    | nil => simp
    | cons b t2 => cases hlen
  | cons a t1 ih =>
    intro l2 hlen
    cases l2 with
    | nil => cases hlen
    | cons b t2 =>
      have hlen2 : t1.length = t2.length := by simpa using hlen
      simp only [List.zip_cons_cons, List.mem_cons, List.cons.injEq]
      constructor
      · intro h
        exact ⟨h (a, b) (Or.inl rfl),
          (ih t2 hlen2).mp fun q hq => h q (Or.inr hq)⟩
      · rintro ⟨h1, h2⟩ q hq
        rcases hq with hq | hq
        · rw [hq]; exact h1
        · exact ((ih t2 hlen2).mpr h2) q hq

/-- `insert` looks up as a pointwise update of `get`. -/
lemma IndexMap.get_insert {α β : Type} [DecidableEq α] (m : IndexMap α β)
    (k k2 : α) (v : β) :
    (m.insert k v).get k2 = if k2 = k then some v else m.get k2 := by
  obtain ⟨l⟩ := m
  simp only [IndexMap.insert, IndexMap.get]
  induction l with
  | nil =>
    by_cases h : k2 = k
    · subst h; simp [IndexMap.insertEntries, IndexMap.getEntries]
    · simp [IndexMap.insertEntries, IndexMap.getEntries, h, Ne.symm h]
  | cons p t ih =>
    by_cases hpk : p.1 = k
    · by_cases h : k2 = k
      · subst h
        simp [IndexMap.insertEntries, hpk, IndexMap.getEntries]
      · have hp2 : p.1 ≠ k2 := by rw [hpk]; exact Ne.symm h
        simp [IndexMap.insertEntries, hpk, IndexMap.getEntries, h, Ne.symm h, hp2]
    · by_cases hp2 : p.1 = k2
      · have h : k2 ≠ k := by rw [← hp2]; exact hpk
        simp [IndexMap.insertEntries, hpk, IndexMap.getEntries, h, hp2]
      · simp [IndexMap.insertEntries, hpk, IndexMap.getEntries, hp2, ih]

/-- Key membership after an `insert`. -/
lemma IndexMap.mem_keys_insert {α β : Type} [DecidableEq α] (m : IndexMap α β)
    (k x : α) (v : β) :
    x ∈ (m.insert k v).keys ↔ (x ∈ m.keys ∨ x = k) := by
  obtain ⟨l⟩ := m
  simp only [IndexMap.insert, IndexMap.keys]
  induction l with
  | nil => simp [IndexMap.insertEntries]
  | cons p t ih =>
    by_cases hpk : p.1 = k
    · simp only [IndexMap.insertEntries, hpk, if_pos, List.map_cons,
        List.mem_cons]
      constructor
      · rintro (hh | hh)
        · exact Or.inr hh
        · exact Or.inl (Or.inr hh)
      · rintro ((hh | hh) | hh)
        · exact Or.inl (hpk ▸ hh)
        · exact Or.inr hh
        · exact Or.inl hh
    · simp only [IndexMap.insertEntries, hpk, if_false, List.map_cons,
        List.mem_cons] at ih ⊢
      rw [ih]
      tauto

/-- `insert` preserves distinctness of the keys. -/
lemma IndexMap.keys_nodup_insert {α β : Type} [DecidableEq α] (m : IndexMap α β)
    (k : α) (v : β) (hnd : m.keys.Nodup) : (m.insert k v).keys.Nodup := by
  obtain ⟨l⟩ := m
  simp only [IndexMap.insert, IndexMap.keys] at hnd ⊢
  induction l with
  | nil => simp [IndexMap.insertEntries]
  | cons p t ih =>
    simp only [List.map_cons, List.nodup_cons] at hnd
    by_cases hpk : p.1 = k
    · simp only [IndexMap.insertEntries, hpk, if_pos, List.map_cons,
        List.nodup_cons]
      exact ⟨hpk ▸ hnd.1, hnd.2⟩
    · simp only [IndexMap.insertEntries, hpk, if_false, List.map_cons,
        List.nodup_cons]
      refine ⟨?_, ih hnd.2⟩
      intro hmem
      have hmem2 : p.1 ∈ (IndexMap.insert ⟨t⟩ k v).keys := by
        simpa [IndexMap.insert, IndexMap.keys] using hmem
      rcases (IndexMap.mem_keys_insert ⟨t⟩ k p.1 v).mp hmem2 with hh | hh
      · exact hnd.1 (by simpa [IndexMap.keys] using hh)
      · exact hpk hh

/-- Folding `insert` over a pair sequence looks up to the last write for the
key, falling back to the accumulator. -/
lemma IndexMap.foldl_insert_get {α β : Type} [DecidableEq α] :
    ∀ (l : List (α × β)) (acc : IndexMap α β) (k : α),
      (l.foldl (fun m p => m.insert p.1 p.2) acc).get k =
        match lastWrite l k with
        | some v => some v
        | none => acc.get k := by
  intro l
  induction l with
  | nil => intro acc k; rfl
  | cons p t ih =>
    intro acc k
    rw [List.foldl_cons, ih]
    cases hlw : lastWrite t k with
    | some v => simp [lastWrite, hlw]
    | none =>
      simp only [lastWrite, hlw]
      rw [IndexMap.get_insert]
      by_cases hpk : p.1 = k
      · subst hpk; simp
      · have hkp : ¬ k = p.1 := fun hh => hpk hh.symm
        simp [hpk, hkp]

/-- Folding `insert` preserves distinctness of the keys. -/
lemma IndexMap.foldl_insert_keys_nodup {α β : Type} [DecidableEq α] :
    ∀ (l : List (α × β)) (acc : IndexMap α β), acc.keys.Nodup →
      ((l.foldl (fun m p => m.insert p.1 p.2) acc).keys).Nodup := by
  intro l
  induction l with
  | nil => intro acc h; exact h
  | cons p t ih =>
    intro acc h
    rw [List.foldl_cons]
    exact ih _ (IndexMap.keys_nodup_insert acc p.1 p.2 h)

/-- C1: for every non-empty ordered mapping in which every column has the same
length L, `Table::try_new` succeeds and the table's `num_rows` equals L; in
particular `{"a": BigInt[1,2,3], "b": VarChar["x","y","z"]}` constructs with
`num_columns = 2` and `num_rows = 3`. -/
theorem table_try_new_uniform_ok :
    (∀ (S : Type) (m : IndexMap Identifier (Column S)) (L : Nat),
        m.entries ≠ [] → (∀ p ∈ m.entries, p.2.len = L) →
        ∃ t, Table.try_new m = .ok t ∧ t.num_rows = L)
    ∧ (∃ t, Table.try_new exampleAB = .ok t ∧
        t.num_columns = 2 ∧ t.num_rows = 3) := by
  constructor
  · intro S m L hne hall
    cases hm : m.entries with
    | nil => exact absurd hm hne
    | cons first rest =>
      have hfirst : first ∈ m.entries := by rw [hm]; exact List.mem_cons_self _ _
      have hfL : first.2.len = L := hall first hfirst
      have hany : (m.values.any fun column => column.len != first.2.len) = false := by
        rw [List.any_eq_false]
        intro c hc
        simp only [IndexMap.values, List.mem_map] at hc
        obtain ⟨p, hp, rfl⟩ := hc
        simp [hall p hp, hfL]
      refine ⟨⟨m, first.2.len⟩, ?_, hfL⟩
      unfold Table.try_new
      rw [hm]
      simp [hany]
  · exact ⟨⟨exampleAB, 3⟩, rfl, rfl, rfl⟩

/-- Witness for C1 at the concrete uniform-length mapping. -/
theorem table_try_new_uniform_ok_witness :
    ∃ t, Table.try_new exampleAB = .ok t ∧ t.num_rows = 3 :=
  table_try_new_uniform_ok.1 Int exampleAB 3 (by decide) (by decide)

/-- C2: whenever a mapping holds two columns of differing lengths,
`Table::try_new` fails with `ColumnLengthMismatch`; that is the only error
kind of the core; in particular `{"a": BigInt[1,2], "b": VarChar["x","y","z"]}`
fails with `ColumnLengthMismatch`. -/
theorem table_try_new_mismatch_err :
    (∀ (S : Type) (m : IndexMap Identifier (Column S)),
        (∃ p ∈ m.entries, ∃ q ∈ m.entries, p.2.len ≠ q.2.len) →
        Table.try_new m = .error .ColumnLengthMismatch)
    ∧ (∀ e : TableError, e = .ColumnLengthMismatch)
    ∧ Table.try_new exampleMismatch = .error .ColumnLengthMismatch := by
  refine ⟨?_, fun e => by cases e; rfl, rfl⟩
  intro S m ⟨p, hp, q, hq, hpq⟩
  cases hm : m.entries with
  | nil => rw [hm] at hp; cases hp
  | cons first rest =>
    have hbad : ∃ c ∈ m.values, c.len ≠ first.2.len := by
      by_cases hpf : p.2.len = first.2.len
      · exact ⟨q.2, by simp only [IndexMap.values, List.mem_map]; exact ⟨q, hq, rfl⟩,
          by rw [← hpf]; exact fun hh => hpq hh.symm⟩
      · exact ⟨p.2, by simp only [IndexMap.values, List.mem_map]; exact ⟨p, hp, rfl⟩, hpf⟩
    have hany : (m.values.any fun column => column.len != first.2.len) = true := by
      rw [List.any_eq_true]
      obtain ⟨c, hc, hcne⟩ := hbad
      exact ⟨c, hc, by simpa using hcne⟩
    unfold Table.try_new
    rw [hm]
    simp [hany]

/-- Witness for C2 at the concrete mismatched mapping. -/
theorem table_try_new_mismatch_err_witness :
    Table.try_new exampleMismatch = .error .ColumnLengthMismatch :=
  table_try_new_mismatch_err.1 Int exampleMismatch
    ⟨("a", Column.BigInt [1, 2]), by decide,
      ("b", Column.VarChar ["x", "y", "z"]), by decide, by decide⟩

/-- C4: the empty mapping constructs successfully with `num_rows = 0` and
`is_empty = true`; in general a table is empty exactly when it has zero
columns. -/
theorem table_empty_mapping_ok :
    (∀ S : Type, ∃ t, Table.try_new (⟨[]⟩ : IndexMap Identifier (Column S)) = .ok t ∧
        t.num_rows = 0 ∧ t.is_empty = true)
    ∧ (∀ (S : Type) (t : Table S), t.is_empty = true ↔ t.num_columns = 0) := by
  constructor
  · intro S
    exact ⟨⟨⟨[]⟩, 0⟩, rfl, rfl, rfl⟩
  · intro S t
    simp [Table.is_empty, Table.num_columns, IndexMap.is_empty, IndexMap.len,
      List.isEmpty_iff, List.length_eq_zero]

/-- C5: round-trip — `into_inner` on a table built from mapping M returns M
itself, so the key set, the values and the key insertion order are all
preserved. -/
theorem table_into_inner_round_trip :
    ∀ (S : Type) (m : IndexMap Identifier (Column S)) (t : Table S),
      Table.try_new m = .ok t →
      t.into_inner = m ∧ t.into_inner.keys = m.keys ∧
        t.into_inner.values = m.values := by
  intro S m t h
  have := (Table.try_new_ok_inv h).1
  exact ⟨this, by rw [Table.into_inner, this], by rw [Table.into_inner, this]⟩

/-- Witness for C5 at the concrete uniform-length mapping. -/
theorem table_into_inner_round_trip_witness :
    (⟨exampleAB, 3⟩ : Table Int).into_inner = exampleAB ∧
      (⟨exampleAB, 3⟩ : Table Int).into_inner.keys = exampleAB.keys ∧
      (⟨exampleAB, 3⟩ : Table Int).into_inner.values = exampleAB.values :=
  table_into_inner_round_trip Int exampleAB ⟨exampleAB, 3⟩ rfl

/-- C6: `column_names` yields exactly the identifiers of the originating
mapping in insertion order, its length equals `num_columns`, and re-invoking
the accessor on the same table yields the identical sequence. -/
theorem table_column_names_spec :
    ∀ (S : Type) (m : IndexMap Identifier (Column S)) (t : Table S),
      Table.try_new m = .ok t →
      t.column_names = m.keys ∧ t.column_names.length = t.num_columns ∧
        t.column_names = t.column_names := by
  intro S m t h
  have ht := (Table.try_new_ok_inv h).1
  refine ⟨by rw [Table.column_names, ht], ?_, rfl⟩
  simp [Table.column_names, Table.num_columns, IndexMap.keys, IndexMap.len]

/-- Witness for C6 at the concrete uniform-length mapping. -/
theorem table_column_names_spec_witness :
    (⟨exampleAB, 3⟩ : Table Int).column_names = exampleAB.keys ∧
      (⟨exampleAB, 3⟩ : Table Int).column_names.length =
        (⟨exampleAB, 3⟩ : Table Int).num_columns ∧
      (⟨exampleAB, 3⟩ : Table Int).column_names =
        (⟨exampleAB, 3⟩ : Table Int).column_names :=
  table_column_names_spec Int exampleAB ⟨exampleAB, 3⟩ rfl

/-- C8: every table returned by `try_new` or `try_from_iter` satisfies the row
count invariant — `num_rows` equals the length of every stored column and is 0
for the empty mapping; no operation mutates a constructed table, so the
invariant persists. -/
theorem table_num_rows_invariant :
    (∀ (S : Type) (m : IndexMap Identifier (Column S)) (t : Table S),
        Table.try_new m = .ok t →
        (∀ p ∈ t.table.entries, p.2.len = t.num_rows) ∧
          (t.table.entries = [] → t.num_rows = 0))
    ∧ (∀ (S : Type) (l : List (Identifier × Column S)) (t : Table S),
        Table.try_from_iter l = .ok t →
        (∀ p ∈ t.table.entries, p.2.len = t.num_rows) ∧
          (t.table.entries = [] → t.num_rows = 0)) := by
  constructor
  · intro S m t h
    obtain ⟨ht, hall, hz⟩ := Table.try_new_ok_inv h
    exact ⟨by rw [ht]; exact hall, by rw [ht]; exact hz⟩
  · intro S l t h
    obtain ⟨ht, hall, hz⟩ := Table.try_new_ok_inv h
    exact ⟨by rw [ht]; exact hall, by rw [ht]; exact hz⟩

/-- Witness for C8 at the concrete uniform-length mapping. -/
theorem table_num_rows_invariant_witness :
    ((∀ p ∈ (⟨exampleAB, 3⟩ : Table Int).table.entries,
        p.2.len = (⟨exampleAB, 3⟩ : Table Int).num_rows) ∧
      ((⟨exampleAB, 3⟩ : Table Int).table.entries = [] →
        (⟨exampleAB, 3⟩ : Table Int).num_rows = 0)) :=
  table_num_rows_invariant.1 Int exampleAB ⟨exampleAB, 3⟩ rfl

/-- A table holding columns A, B in the order [A, B]. -/
def tableOrderAB : Table Int :=
  ⟨⟨[("a", Column.BigInt [1]), ("b", Column.BigInt [2])]⟩, 1⟩

/-- The same columns in the order [B, A]. -/
def tableOrderBA : Table Int :=
  ⟨⟨[("b", Column.BigInt [2]), ("a", Column.BigInt [1])]⟩, 1⟩

/-- C3: two tables compare equal exactly when their mappings hold the same set
of (identifier, column) entries and their key sequences agree; consequently
the same columns in orders [A, B] and [B, A] compare unequal. -/
theorem table_eq_order_sensitive :
    (∀ (S : Type) [DecidableEq S] (t1 t2 : Table S),
        t1.table.keys.Nodup → t2.table.keys.Nodup →
        (Table.eqb t1 t2 = true ↔
          (t1.table.entries.Perm t2.table.entries ∧
            t1.table.keys = t2.table.keys)))
    ∧ Table.eqb tableOrderAB tableOrderBA = false := by
  constructor
  · intro S _ t1 t2 hnd1 hnd2
    have hkl1 : t1.table.keys.length = t1.table.entries.length := by
      simp [IndexMap.keys]
    have hkl2 : t2.table.keys.length = t2.table.entries.length := by
      simp [IndexMap.keys]
    constructor
    · intro h
      simp only [Table.eqb, IndexMap.beq, Bool.and_eq_true, List.all_eq_true,
        beq_iff_eq, Nat.beq_eq_true_eq, IndexMap.len] at h
      obtain ⟨⟨hlen, hall⟩, hzip⟩ := h
      have hsub : t1.table.entries ⊆ t2.table.entries := by
        intro p hp
        have := hall p hp
        have hmem := IndexMap.mem_of_get_eq_some t2.table.entries p.1 p.2 this
        simpa using hmem
      have hnd1e : t1.table.entries.Nodup := List.Nodup.of_map _ hnd1
      have hperm : t1.table.entries.Perm t2.table.entries :=
        (hnd1e.subperm hsub).perm_of_length_le (le_of_eq hlen.symm)
      refine ⟨hperm, ?_⟩
      exact (zip_all_eq_iff t1.table.keys t2.table.keys
        (by rw [hkl1, hkl2, hlen])).mp hzip
    · rintro ⟨hperm, hkeys⟩
      simp only [Table.eqb, IndexMap.beq, Bool.and_eq_true, List.all_eq_true,
        beq_iff_eq, Nat.beq_eq_true_eq, IndexMap.len]
      refine ⟨⟨hperm.length_eq, ?_⟩, ?_⟩
      · intro p hp
        have hp2 : p ∈ t2.table.entries := hperm.subset hp
        have := IndexMap.get_eq_some_of_mem t2.table.entries p.1 p.2
          (by simpa [IndexMap.keys] using hnd2) (by simpa using hp2)
        simpa using this
      · exact (zip_all_eq_iff t1.table.keys t2.table.keys
          (by rw [hkl1, hkl2, hperm.length_eq])).mpr hkeys
  · decide

/-- Witness for C3 at the two concrete orderings of the same columns. -/
theorem table_eq_order_sensitive_witness :
    Table.eqb tableOrderAB tableOrderBA = true ↔
      (tableOrderAB.table.entries.Perm tableOrderBA.table.entries ∧
        tableOrderAB.table.keys = tableOrderBA.table.keys) :=
  table_eq_order_sensitive.1 Int tableOrderAB tableOrderBA
    (by decide) (by decide)

/-- C7: `Table::try_from_iter` equals `try_new` applied to the ordered mapping
built from the pairs; that mapping resolves every key to the value written
last for it and has pairwise-distinct keys. -/
theorem table_try_from_iter_spec :
    ∀ (S : Type) (l : List (Identifier × Column S)),
      Table.try_from_iter l = Table.try_new (IndexMap.from_iter l)
      ∧ (∀ k, (IndexMap.from_iter l).get k = lastWrite l k)
      ∧ (IndexMap.from_iter l).keys.Nodup := by
  intro S l
  refine ⟨rfl, ?_, ?_⟩
  · intro k
    unfold IndexMap.from_iter
    rw [IndexMap.foldl_insert_get]
    cases hlw : lastWrite l k with
    | none => simp [IndexMap.get, IndexMap.getEntries]
    | some v => simp
  · exact IndexMap.foldl_insert_keys_nodup l ⟨[]⟩ (by simp [IndexMap.keys])

/-- C9: the test-only string indexing parses first and fails at the parse step
on a malformed name; on a well-formed name it returns the column stored under
the parsed identifier. -/
theorem table_index_spec :
    ∀ (S : Type) (parse : String → Option Identifier) (t : Table S) (s : String),
      (parse s = none → Table.index parse t s = .error .parsePanic)
      ∧ (∀ id c, parse s = some id → t.table.get id = some c →
          Table.index parse t s = .ok c) := by
  intro S parse t s
  constructor
  · intro h
    simp [Table.index, h]
  · intro id c h hc
    simp [Table.index, h, hc]

/-- An identifier parser accepting only the well-formed name "a". -/
def parseOnlyA : String → Option Identifier :=
  fun s => if s = "a" then some "a" else none

/-- Witness for C9: a malformed name fails at the parse step, and the
well-formed name "a" returns the stored column. -/
theorem table_index_spec_witness :
    Table.index parseOnlyA (⟨exampleAB, 3⟩ : Table Int) "!" = .error .parsePanic
    ∧ Table.index parseOnlyA (⟨exampleAB, 3⟩ : Table Int) "a" =
        .ok (Column.BigInt [1, 2, 3]) :=
  ⟨(table_index_spec Int parseOnlyA ⟨exampleAB, 3⟩ "!").1 (by decide),
   (table_index_spec Int parseOnlyA ⟨exampleAB, 3⟩ "a").2 "a"
     (Column.BigInt [1, 2, 3]) (by decide) (by decide)⟩

/-- C10: `Table::try_new` is total — the panic-explicit model, in which
indexing the first column of an empty map is a `none`, agrees with `try_new`
on every input, so the `table[0]` indexing is reached only under the guarantee
of the emptiness check and both branches return normally. -/
theorem table_try_new_total :
    ∀ (S : Type) (m : IndexMap Identifier (Column S)),
      Table.try_new_checked m = some (Table.try_new m) := by
  intro S m
  obtain ⟨entries⟩ := m
  cases entries with
  | nil => rfl
  | cons first rest => rfl

end SxT
